import Mathlib

/-!
Shallow embedding of the `algorithms-benchmark` repository.

The embedded code is:
* `src/src/utils/benchmark.ts` — the measurement sampler (`measureTimeAndMemory`),
  the growth-ratio complexity estimator (`estimateComplexity`), and the
  orchestration in `benchmark` (per-size measurement loop, ratio computation,
  verdicts, chart data).
* `src/src/algorithms/slide-window/length-of-longest-substring/index.ts` —
  `lengthOfLongestSubstring`, `lengthOfLongestSubstringBruteForce`, `allUnique`.

Modelling conventions:
* JavaScript numbers are modelled by `JSNum`: a rational for a finite double
  plus `nan` and the two infinities.  Floating-point rounding and negative
  zero are idealized away (the benchmark's arithmetic on the values reachable
  here never depends on rounding, and `-0` is unreachable: `timeMs` and
  `memoryMb` are differences that give `+0` when zero).
* Measurement values (`timeMs`, `memoryMb` fields) are plain rationals: they
  come from `hrtime` / `heapUsed` differences, which are always finite.
  The ratio computations can produce `Infinity`/`NaN`, so ratios are `JSNum`.
* Effects (throwing generators / functions under test) are modelled with
  `Except`; the ambient clock and heap readings are supplied by a
  `MeasureEnv` oracle.  Chart rendering and console printing are pure data
  in `BenchOutput` (the adapter is an external collaborator).
* JavaScript strings are sequences of UTF-16 code units, modelled as
  `List ℕ`.  Indexing `s[i]`, `s.slice` and `.length` work on code units,
  while `for...of` (used by `allUnique`) iterates code points, grouping a
  surrogate pair into one value; `codePoints` models that iteration.
-/

/-- Idealized JavaScript number: a rational for a finite double, plus `NaN`
and the two infinities.  Rounding and negative zero are not modelled. -/
inductive JSNum where
  | finite (q : ℚ)
  | nan
  | inf
  | negInf
deriving DecidableEq, Repr

/-- JavaScript `+` on numbers (the cases produced by summing ratios). -/
def JSNum.add : JSNum → JSNum → JSNum
  | .nan, _ => .nan
  | _, .nan => .nan
  | .inf, .negInf => .nan
  | .negInf, .inf => .nan
  | .inf, _ => .inf
  | _, .inf => .inf
  | .negInf, _ => .negInf
  | _, .negInf => .negInf
  | .finite a, .finite b => .finite (a + b)

/-- JavaScript `/` on numbers.  Division of finite values by `0` (i.e. `+0`,
the only zero reachable here) gives `±Infinity` by sign, and `0/0 = NaN`. -/
def JSNum.div : JSNum → JSNum → JSNum
  | .nan, _ => .nan
  | _, .nan => .nan
  | .inf, .inf => .nan
  | .inf, .negInf => .nan
  | .negInf, .inf => .nan
  | .negInf, .negInf => .nan
  | .inf, .finite b => if b < 0 then .negInf else .inf
  | .negInf, .finite b => if b < 0 then .inf else .negInf
  | .finite _, .inf => .finite 0
  | .finite _, .negInf => .finite 0
  | .finite a, .finite b =>
      if b = 0 then (if 0 < a then .inf else if a < 0 then .negInf else .nan)
      else .finite (a / b)

/-- JavaScript `<` on numbers: any comparison involving `NaN` is `false`. -/
def JSNum.lt : JSNum → JSNum → Bool
  | .nan, _ => false
  | _, .nan => false
  | .finite a, .finite b => decide (a < b)
  | .finite _, .inf => true
  | .finite _, .negInf => false
  | .inf, _ => false
  | .negInf, .negInf => false
  | .negInf, _ => true

/-- JavaScript `Math.max` on two numbers: `NaN` if either argument is `NaN`. -/
def JSNum.max : JSNum → JSNum → JSNum
  | .nan, _ => .nan
  | _, .nan => .nan
  | .inf, _ => .inf
  | _, .inf => .inf
  | .negInf, y => y
  | x, .negInf => x
  | .finite a, .finite b => .finite (Max.max a b)

/-- One benchmark measurement (`BenchmarkPoint` in `benchmark.ts`):
input size `n`, elapsed `timeMs`, heap delta `memoryMb`.  The metric fields
are finite JavaScript numbers, hence rationals here. -/
structure BenchmarkPoint where
  n : ℚ
  timeMs : ℚ
  memoryMb : ℚ
deriving DecidableEq, Repr

/-- The local `avgRatio` of `estimateComplexity`:
`ratios.reduce((a, b) => a + b, 0) / ratios.length`, in JavaScript
arithmetic (for an empty list this is `0 / 0 = NaN`). -/
def avgRatio (ratios : List JSNum) : JSNum :=
  JSNum.div (ratios.foldl JSNum.add (JSNum.finite 0)) (JSNum.finite (ratios.length : ℚ))

/-- `estimateComplexity` from `benchmark.ts`: thresholds `1.5 / 3 / 6` on the
average ratio, with the source's verdict strings. -/
def estimateComplexity (ratios : List JSNum) : String :=
  if (avgRatio ratios).lt (JSNum.finite (3 / 2)) then "O(1) ~ constant"
  else if (avgRatio ratios).lt (JSNum.finite 3) then "O(n) ~ linear"
  else if (avgRatio ratios).lt (JSNum.finite 6) then "O(n log n) ~ nearly-linear"
  else "O(n^2) or worse"

/-- One time ratio pushed by the loop in `benchmark`:
`results[i].timeMs / results[i - 1].timeMs` — a bare division. -/
def timeRatioOf (prev curr : BenchmarkPoint) : JSNum :=
  JSNum.div (JSNum.finite curr.timeMs) (JSNum.finite prev.timeMs)

/-- One memory ratio pushed by the loop in `benchmark`:
`Math.max(results[i].memoryMb / (results[i - 1].memoryMb || 0.0001), 0)`.
`x || 0.0001` substitutes the epsilon exactly when `x` is falsy, which for the
reachable finite values means `x = 0`. -/
def memRatioOf (prev curr : BenchmarkPoint) : JSNum :=
  JSNum.max
    (JSNum.div (JSNum.finite curr.memoryMb)
      (JSNum.finite (if prev.memoryMb = 0 then 1 / 10000 else prev.memoryMb)))
    (JSNum.finite 0)

/-- The consecutive pairs `(results[i - 1], results[i])` for `i = 1 .. length - 1`. -/
def consecutivePairs (results : List BenchmarkPoint) : List (BenchmarkPoint × BenchmarkPoint) :=
  results.zip results.tail

/-- The `timeRatios` array built by `benchmark`. -/
def timeRatios (results : List BenchmarkPoint) : List JSNum :=
  (consecutivePairs results).map (fun pr => timeRatioOf pr.1 pr.2)

/-- The `memRatios` array built by `benchmark`. -/
def memRatios (results : List BenchmarkPoint) : List JSNum :=
  (consecutivePairs results).map (fun pr => memRatioOf pr.1 pr.2)

/-- The ambient readings one `measureTimeAndMemory` call observes:
heap usage and monotonic clock (nanoseconds) before and after the call of the
function under test. -/
structure MeasureEnv where
  startMem : ℚ
  startTime : ℚ
  endMem : ℚ
  endTime : ℚ
deriving DecidableEq, Repr

/-- `MeasurementResult` from `benchmark.ts`. -/
structure MeasurementResult (T : Type) where
  result : T
  timeMs : ℚ
  memoryMb : ℚ

/-- `measureTimeAndMemory` from `benchmark.ts`.  The measured function is a
state transformer `S → T × S` (so its side effects, e.g. an invocation
counter, are explicit); `env` supplies the clock / heap readings the source
takes from `process.hrtime.bigint()` and `process.memoryUsage().heapUsed`.
`timeMs = Number(end - start) / 1_000_000`;
`memoryMb = (endMem - startMem) / 1024 / 1024` (no clamping). -/
def measureTimeAndMemory {S T : Type} (fn : S → T × S) (env : MeasureEnv) (world : S) :
    MeasurementResult T × S :=
  let out := fn world
  (⟨out.1, (env.endTime - env.startTime) / 1000000,
    (env.endMem - env.startMem) / 1024 / 1024⟩, out.2)

/-- One iteration of the measurement loop in `benchmark`:
`const input = generator(n); const { timeMs, memoryMb } = measureTimeAndMemory(() => fn(input)); return { n, timeMs, memoryMb }`.
Throwing of the generator or of the function under test is modelled with
`Except`; `envOf` supplies the readings observed for size `n`. -/
def measureStep {E A B : Type} (generator : ℚ → Except E A) (fn : A → Except E B)
    (envOf : ℚ → MeasureEnv) (n : ℚ) : Except E BenchmarkPoint :=
  match generator n with
  | Except.error e => Except.error e
  | Except.ok input =>
    match fn input with
    | Except.error e => Except.error e
    | Except.ok _ =>
      let env := envOf n
      Except.ok ⟨n, (env.endTime - env.startTime) / 1000000,
        (env.endMem - env.startMem) / 1024 / 1024⟩

/-- `sizes.map(...)` with a callback that can throw: elements are processed
left to right and the first exception aborts the whole map, discarding the
points already produced. -/
def mapMeasure {E : Type} (step : ℚ → Except E BenchmarkPoint) :
    List ℚ → Except E (List BenchmarkPoint)
  | [] => Except.ok []
  | n :: rest =>
    match step n with
    | Except.error e => Except.error e
    | Except.ok p =>
      match mapMeasure step rest with
      | Except.error e => Except.error e
      | Except.ok ps => Except.ok (p :: ps)

/-- The `results` array built by `benchmark` for the given size list. -/
def benchmarkResults {E A B : Type} (generator : ℚ → Except E A) (fn : A → Except E B)
    (envOf : ℚ → MeasureEnv) (sizes : List ℚ) : Except E (List BenchmarkPoint) :=
  mapMeasure (measureStep generator fn envOf) sizes

/-- Everything `benchmark` emits after measuring: the console table, the two
complexity verdicts, and the data handed to the chart adapter (labels and the
two series). -/
structure BenchOutput where
  table : List BenchmarkPoint
  timeVerdict : String
  memVerdict : String
  chartLabels : List ℚ
  chartTimeSeries : List ℚ
  chartMemSeries : List ℚ
deriving DecidableEq, Repr

/-- The full `benchmark` run: measure every size, then compute the table,
both verdicts and the chart data.  An exception from the generator or the
function under test aborts the run before any output is produced. -/
def benchmarkRun {E A B : Type} (generator : ℚ → Except E A) (fn : A → Except E B)
    (envOf : ℚ → MeasureEnv) (sizes : List ℚ) : Except E BenchOutput :=
  match benchmarkResults generator fn envOf sizes with
  | Except.error e => Except.error e
  | Except.ok results =>
    Except.ok ⟨results,
      estimateComplexity (timeRatios results),
      estimateComplexity (memRatios results),
      results.map (fun r => r.n),
      results.map (fun r => r.timeMs),
      results.map (fun r => r.memoryMb)⟩

/-- JavaScript strings are sequences of UTF-16 code units, modelled here as
`List ℕ` (only equality of units matters to these algorithms).  Indexing
`s[i]`, `s.slice` and `.length` all work on code units, but `for...of`
iterates code points: `codePoints` is the sequence of values a `for...of`
loop yields, where a high surrogate (`55296`–`56319`) immediately followed by
a low surrogate (`56320`–`57343`) is yielded as one two-unit chunk (an astral
code point) and every other unit is yielded alone.  Each yielded value is
itself a small string, modelled as its unit list. -/
def codePoints : List ℕ → List (List ℕ)
  | [] => []
  | [u] => [[u]]
  | u :: v :: rest =>
    if (55296 ≤ u ∧ u ≤ 56319) ∧ (56320 ≤ v ∧ v ≤ 57343) then
      ([u, v]) :: codePoints rest
    else
      ([u]) :: codePoints (v :: rest)

/-- The loop body of `allUnique`: walk the values produced by the string
iterator, returning `false` at the first one already in `seen` (the `Set` is
modelled as the list of its elements in insertion order). -/
def allUniqueGo : List (List ℕ) → List (List ℕ) → Bool
  | [], _ => true
  | c :: rest, seen => if c ∈ seen then false else allUniqueGo rest (c :: seen)

/-- `allUnique` from `length-of-longest-substring/index.ts`.  The source's
`for (const char of substring)` walks the string's code points (grouping
surrogate pairs), not its code units, hence the walk over
`codePoints substring`. -/
def allUnique (substring : List ℕ) : Bool :=
  allUniqueGo (codePoints substring) []

/-- `lengthOfLongestSubstringBruteForce` from
`length-of-longest-substring/index.ts`: for `i` in `[0, length)` and `j` in
`[i, length)` test `s.slice(i, j + 1)` (here `(s.drop i).take (d + 1)` with
`d = j - i`) and keep the longest unique one. -/
def lengthOfLongestSubstringBruteForce (s : List ℕ) : ℕ :=
  (List.range s.length).foldl
    (fun maxLength i =>
      (List.range (s.length - i)).foldl
        (fun acc d =>
          if allUnique ((s.drop i).take (d + 1)) then
            max acc ((s.drop i).take (d + 1)).length
          else acc)
        maxLength)
    0

/-- The inner `while (charSet.has(s[rightPointer]))` loop of
`lengthOfLongestSubstring`: delete `s[leftPointer]` from the set and advance
`leftPointer`.  The source loop has no explicit bound; here it runs on fuel.
Called with fuel `charSet.length` it is extensionally the source loop: in
every reachable state `s[leftPointer]` is the oldest element of `charSet`, so
each iteration shrinks the set and at most `charSet.length` iterations can
test true (with the set empty the condition is false, which is also what the
fuel-exhausted branch returns).  Out-of-range `s[leftPointer]` is JavaScript
`undefined`, whose deletion from a set of code-unit strings is a no-op. -/
def whileShrink (s : List ℕ) (c : ℕ) : ℕ → List ℕ → ℕ → List ℕ × ℕ
  | 0, charSet, leftPointer => (charSet, leftPointer)
  | fuel + 1, charSet, leftPointer =>
    if c ∈ charSet then
      whileShrink s c fuel
        (match s.get? leftPointer with
          | some ch => charSet.erase ch
          | none => charSet)
        (leftPointer + 1)
    else (charSet, leftPointer)

/-- `charSet.add(c)` on the insertion-ordered-list model of a JavaScript
`Set`: append when absent, no-op when present. -/
def setAdd (charSet : List ℕ) (c : ℕ) : List ℕ :=
  if c ∈ charSet then charSet else charSet ++ [c]

/-- One iteration of the `for (rightPointer ...)` loop of
`lengthOfLongestSubstring`, acting on the state
`(charSet, leftPointer, maxLength)`.  The default of `getD` is never used:
`rightPointer` ranges over `[0, s.length)`. -/
def swStep (s : List ℕ) (st : List ℕ × ℕ × ℕ) (rightPointer : ℕ) :
    List ℕ × ℕ × ℕ :=
  let c := s.getD rightPointer 0
  let shrunk := whileShrink s c st.1.length st.1 st.2.1
  let charSet := setAdd shrunk.1 c
  (charSet, shrunk.2, max st.2.2 charSet.length)

/-- `lengthOfLongestSubstring` from `length-of-longest-substring/index.ts`
(the sliding-window implementation; `optimized.ts` is the identical code).
It indexes the string, so it works purely on code units. -/
def lengthOfLongestSubstring (s : List ℕ) : ℕ :=
  ((List.range s.length).foldl (swStep s) ([], 0, 0)).2.2

/-- The window `s[l .. r)` as a list. -/
def swin (s : List ℕ) (l r : ℕ) : List ℕ :=
  (s.take r).drop l

/-- `v` is the length (in code units) of the longest contiguous window of `s`
without a duplicated code unit: some such window of length `v` exists, and
every duplicate-free window is at most that long. -/
def NodupSliceMax (s : List ℕ) (v : ℕ) : Prop :=
  (∃ i j, i ≤ j ∧ j ≤ s.length ∧ (swin s i j).Nodup ∧ v = j - i) ∧
  (∀ i j, i ≤ j → j ≤ s.length → (swin s i j).Nodup → j - i ≤ v)

/-- The inner fold of `lengthOfLongestSubstringBruteForce` (the `j` loop for
a fixed `i`), named so the generic fold lemmas below can speak about it. -/
def bfInner (s : List ℕ) (i : ℕ) : ℕ → ℕ → ℕ :=
  fun acc d =>
    if allUnique ((s.drop i).take (d + 1)) then max acc ((s.drop i).take (d + 1)).length
    else acc

/-- The outer fold step of `lengthOfLongestSubstringBruteForce` (the `i`
loop). -/
def bfOuter (s : List ℕ) : ℕ → ℕ → ℕ :=
  fun maxLength i => (List.range (s.length - i)).foldl (bfInner s i) maxLength

/-- Measurement points whose metrics grow linearly in the input size:
`timeMs = memoryMb = c * n`. -/
def linPoints (c : ℚ) (sizes : List ℚ) : List BenchmarkPoint :=
  sizes.map (fun n => ⟨n, c * n, c * n⟩)

/-- Consecutive quotients of the size list itself. -/
def sizeQuots (sizes : List ℚ) : List ℚ :=
  (sizes.zip sizes.tail).map (fun pr => pr.2 / pr.1)

/-- The arithmetic mean of the consecutive size quotients. -/
def sizeQuotMean (sizes : List ℚ) : ℚ :=
  (sizeQuots sizes).sum / ((sizeQuots sizes).length : ℚ)

/-- Measurement points whose metrics grow quadratically in the input size:
`timeMs = memoryMb = n ^ 2`. -/
def sqPoints (sizes : List ℚ) : List BenchmarkPoint :=
  sizes.map (fun n => ⟨n, n ^ 2, n ^ 2⟩)

/-- Consecutive quotients of the squared sizes. -/
def sqQuots (sizes : List ℚ) : List ℚ :=
  (sizes.zip sizes.tail).map (fun pr => pr.2 ^ 2 / pr.1 ^ 2)

/-- The arithmetic mean of the consecutive squared-size quotients. -/
def sqQuotMean (sizes : List ℚ) : ℚ :=
  (sqQuots sizes).sum / ((sqQuots sizes).length : ℚ)

/-! ## Facts about the complexity estimator -/

theorem JSNum.div_finite (a b : ℚ) (hb : b ≠ 0) :
    JSNum.div (JSNum.finite a) (JSNum.finite b) = JSNum.finite (a / b) := by
  simp [JSNum.div, hb]

theorem JSNum.max_finite (a b : ℚ) :
    JSNum.max (JSNum.finite a) (JSNum.finite b) = JSNum.finite (Max.max a b) := rfl

theorem estComp_mem_four (ratios : List JSNum) :
    estimateComplexity ratios ∈
      ["O(1) ~ constant", "O(n) ~ linear", "O(n log n) ~ nearly-linear", "O(n^2) or worse"] := by
  unfold estimateComplexity
  split_ifs <;> simp

theorem foldl_add_finite (l : List ℚ) (a : ℚ) :
    (l.map JSNum.finite).foldl JSNum.add (JSNum.finite a) = JSNum.finite (a + l.sum) := by
  induction l generalizing a with
  | nil => simp
  | cons x t ih => simp [JSNum.add, ih, add_assoc]

theorem avgRatio_map_finite (l : List ℚ) (h : l ≠ []) :
    avgRatio (l.map JSNum.finite) = JSNum.finite (l.sum / (l.length : ℚ)) := by
  have h0 : l.length ≠ 0 := fun hh => h (List.length_eq_zero.mp hh)
  have hlen : ((l.length : ℚ)) ≠ 0 := Nat.cast_ne_zero.mpr h0
  unfold avgRatio
  rw [List.length_map, foldl_add_finite, zero_add]
  simp [JSNum.div, hlen]

theorem estComp_map_finite (l : List ℚ) (h : l ≠ []) :
    estimateComplexity (l.map JSNum.finite) =
      if l.sum / (l.length : ℚ) < 3 / 2 then "O(1) ~ constant"
      else if l.sum / (l.length : ℚ) < 3 then "O(n) ~ linear"
      else if l.sum / (l.length : ℚ) < 6 then "O(n log n) ~ nearly-linear"
      else "O(n^2) or worse" := by
  unfold estimateComplexity
  rw [avgRatio_map_finite l h]
  simp [JSNum.lt]

/-- Claim C1: for every non-empty ratio sequence, `estimateComplexity`
computes the arithmetic mean of the ratios and classifies it by the fixed
thresholds `1.5 / 3 / 6`, returning exactly one of the four verdicts
(constant / linear / nearly-linear / quadratic-or-worse). -/
theorem claim_c1 (ratios : List ℚ) (h : ratios ≠ []) :
    estimateComplexity (ratios.map JSNum.finite) =
      (if ratios.sum / (ratios.length : ℚ) < 3 / 2 then "O(1) ~ constant"
       else if ratios.sum / (ratios.length : ℚ) < 3 then "O(n) ~ linear"
       else if ratios.sum / (ratios.length : ℚ) < 6 then "O(n log n) ~ nearly-linear"
       else "O(n^2) or worse") ∧
    estimateComplexity (ratios.map JSNum.finite) ∈
      ["O(1) ~ constant", "O(n) ~ linear", "O(n log n) ~ nearly-linear", "O(n^2) or worse"] :=
  ⟨estComp_map_finite ratios h, estComp_mem_four _⟩

/-- Witness for C1 at the concrete ratio list `[2]` (mean `2`, so linear). -/
theorem claim_c1_witness :
    estimateComplexity ([(2 : ℚ)].map JSNum.finite) = "O(n) ~ linear" := by
  have h := claim_c1 [(2 : ℚ)] (by simp)
  rw [h.1]
  norm_num

/-- Claim C4: ratio computation and classification are total: for any ratio
list, and for the time and memory ratio lists of any point sequence —
including points with a metric of exactly `0` or a negative metric in
denominator position — `estimateComplexity` returns a member of the fixed
four-element verdict set. -/
theorem claim_c4 (ratios : List JSNum) (pts : List BenchmarkPoint) :
    estimateComplexity ratios ∈
      ["O(1) ~ constant", "O(n) ~ linear", "O(n log n) ~ nearly-linear", "O(n^2) or worse"] ∧
    estimateComplexity (timeRatios pts) ∈
      ["O(1) ~ constant", "O(n) ~ linear", "O(n log n) ~ nearly-linear", "O(n^2) or worse"] ∧
    estimateComplexity (memRatios pts) ∈
      ["O(1) ~ constant", "O(n) ~ linear", "O(n log n) ~ nearly-linear", "O(n^2) or worse"] :=
  ⟨estComp_mem_four _, estComp_mem_four _, estComp_mem_four _⟩

/-- Claim C10: on the empty ratio list — which the benchmark produces
whenever it measured at most one size — the computed average is
`0 / 0 = NaN`, every threshold comparison with `NaN` is false, and the
classifier returns the quadratic-or-worse verdict rather than failing. -/
theorem claim_c10 :
    avgRatio [] = JSNum.nan ∧
    (∀ x : JSNum, JSNum.nan.lt x = false) ∧
    estimateComplexity [] = "O(n^2) or worse" ∧
    (∀ pts : List BenchmarkPoint, pts.length ≤ 1 →
      timeRatios pts = [] ∧ memRatios pts = [] ∧
      estimateComplexity (timeRatios pts) = "O(n^2) or worse" ∧
      estimateComplexity (memRatios pts) = "O(n^2) or worse") := by
  refine ⟨by with_unfolding_all rfl, fun x => by cases x <;> rfl, by with_unfolding_all rfl, ?_⟩
  intro pts hlen
  cases pts with
  | nil => exact ⟨rfl, rfl, by with_unfolding_all rfl, by with_unfolding_all rfl⟩
  | cons p rest =>
    cases rest with
    | nil => exact ⟨rfl, rfl, by with_unfolding_all rfl, by with_unfolding_all rfl⟩
    | cons q t => simp at hlen

/-- Witness for C10: a single-point run yields empty ratio lists and the
quadratic-or-worse verdict. -/
theorem claim_c10_witness :
    timeRatios [⟨1, 1, 1⟩] = [] ∧
    estimateComplexity (timeRatios [⟨1, 1, 1⟩]) = "O(n^2) or worse" := by
  have h := claim_c10.2.2.2 [⟨1, 1, 1⟩] (by simp)
  exact ⟨h.1, h.2.2.1⟩

/-- Counterexample to C2 as stated: with previous `memoryMb = -1` (a
denominator `≤ 0`) the code performs a plain division by `-1` — no epsilon is
substituted — and the flooring then yields ratio `0`, classifying as
constant; the computation the claim describes (epsilon substituted for a
denominator `≤ 0`, then floored) yields `10000` instead. -/
theorem claim_c2_cex :
    memRatios [⟨1, 1, -1⟩, ⟨2, 1, 1⟩] = [JSNum.finite 0] ∧
    JSNum.max (JSNum.div (JSNum.finite 1) (JSNum.finite (1 / 10000))) (JSNum.finite 0) =
      JSNum.finite 10000 ∧
    JSNum.finite 0 ≠ JSNum.finite 10000 ∧
    estimateComplexity (memRatios [⟨1, 1, -1⟩, ⟨2, 1, 1⟩]) = "O(1) ~ constant" := by
  exact ⟨by with_unfolding_all rfl, by with_unfolding_all rfl,
    by with_unfolding_all decide, by with_unfolding_all rfl⟩

/-- Claim C2 as amended: only the memory dimension is guarded, and the
epsilon `1e-4` is substituted only when the previous `memoryMb` is exactly
`0` (JavaScript falsiness), not for negative denominators; negative memory
ratios are floored to `0` by `Math.max`, so every memory ratio is a
nonnegative finite value.  Time ratios are bare divisions with no epsilon and
no flooring: a zero previous time with a positive current time produces
`Infinity`. -/
theorem claim_c2_amended :
    (∀ pts : List BenchmarkPoint, ∀ r ∈ memRatios pts, ∃ q : ℚ, r = JSNum.finite q ∧ 0 ≤ q) ∧
    (∀ prev curr : BenchmarkPoint, prev.memoryMb = 0 →
      memRatioOf prev curr =
        JSNum.max (JSNum.div (JSNum.finite curr.memoryMb) (JSNum.finite (1 / 10000)))
          (JSNum.finite 0)) ∧
    (∀ prev curr : BenchmarkPoint, prev.memoryMb < 0 → 0 < curr.memoryMb →
      memRatioOf prev curr = JSNum.finite 0) ∧
    (∀ prev curr : BenchmarkPoint, prev.timeMs = 0 → 0 < curr.timeMs →
      timeRatioOf prev curr = JSNum.inf) := by
  refine ⟨?_, ?_, ?_, ?_⟩
  · intro pts r hr
    rw [memRatios, List.mem_map] at hr
    obtain ⟨pr, _, hpr⟩ := hr
    have hdne : (if pr.1.memoryMb = 0 then (1 : ℚ) / 10000 else pr.1.memoryMb) ≠ 0 := by
      split_ifs with h0
      · norm_num
      · exact h0
    refine ⟨Max.max (pr.2.memoryMb / (if pr.1.memoryMb = 0 then (1 : ℚ) / 10000
      else pr.1.memoryMb)) 0, ?_, le_max_right _ _⟩
    rw [← hpr]
    unfold memRatioOf
    rw [JSNum.div_finite _ _ hdne, JSNum.max_finite]
  · intro prev curr h0
    simp [memRatioOf, h0]
  · intro prev curr hneg hpos
    have hne : prev.memoryMb ≠ 0 := ne_of_lt hneg
    have hq : curr.memoryMb / prev.memoryMb < 0 := div_neg_of_pos_of_neg hpos hneg
    simp [memRatioOf, hne, JSNum.div, JSNum.max, max_eq_right (le_of_lt hq)]
  · intro prev curr h0 hpos
    simp [timeRatioOf, JSNum.div, h0, hpos]

/-- Witness for the amended C2 at concrete points: a positive memory ratio
passes through finite and nonnegative; a zero memory denominator gets the
epsilon; a negative memory denominator gets no epsilon and floors to `0`; a
zero time denominator produces `Infinity`. -/
theorem claim_c2_amended_witness :
    (∃ q : ℚ, JSNum.finite 3 = JSNum.finite q ∧ 0 ≤ q) ∧
    memRatioOf ⟨1, 0, 0⟩ ⟨2, 0, 5⟩ =
      JSNum.max (JSNum.div (JSNum.finite 5) (JSNum.finite (1 / 10000))) (JSNum.finite 0) ∧
    memRatioOf ⟨1, 0, -1⟩ ⟨2, 0, 1⟩ = JSNum.finite 0 ∧
    timeRatioOf ⟨1, 0, 5⟩ ⟨2, 3, 5⟩ = JSNum.inf := by
  refine ⟨claim_c2_amended.1 [⟨1, 0, 2⟩, ⟨2, 0, 6⟩] (JSNum.finite 3) ?_,
    claim_c2_amended.2.1 ⟨1, 0, 0⟩ ⟨2, 0, 5⟩ rfl,
    claim_c2_amended.2.2.1 ⟨1, 0, -1⟩ ⟨2, 0, 1⟩ (by norm_num) (by norm_num),
    claim_c2_amended.2.2.2 ⟨1, 0, 5⟩ ⟨2, 3, 5⟩ rfl (by norm_num)⟩
  with_unfolding_all decide

/-! ## Ratio lists of linearly and quadratically growing metrics -/

theorem pairs_map (f : ℚ → BenchmarkPoint) (sizes : List ℚ) :
    consecutivePairs (sizes.map f) = (sizes.zip sizes.tail).map (fun pr => (f pr.1, f pr.2)) := by
  have ht : (sizes.map f).tail = sizes.tail.map f := by cases sizes <;> rfl
  unfold consecutivePairs
  rw [ht, List.zip_map]
  exact List.map_congr_left fun a _ => rfl

theorem timeRatios_linPoints (c : ℚ) (sizes : List ℚ) (hc : 0 < c)
    (hpos : ∀ n ∈ sizes, 0 < n) :
    timeRatios (linPoints c sizes) = (sizeQuots sizes).map JSNum.finite := by
  unfold timeRatios linPoints sizeQuots
  rw [pairs_map, List.map_map, List.map_map]
  apply List.map_congr_left
  intro pr hpr
  have hm := List.of_mem_zip (show (pr.1, pr.2) ∈ sizes.zip sizes.tail from hpr)
  have hp1 : 0 < pr.1 := hpos _ hm.1
  have hne : c * pr.1 ≠ 0 := ne_of_gt (mul_pos hc hp1)
  simp [Function.comp, timeRatioOf, JSNum.div, hne, mul_div_mul_left _ _ (ne_of_gt hc)]

theorem memRatios_linPoints (c : ℚ) (sizes : List ℚ) (hc : 0 < c)
    (hpos : ∀ n ∈ sizes, 0 < n) :
    memRatios (linPoints c sizes) = (sizeQuots sizes).map JSNum.finite := by
  unfold memRatios linPoints sizeQuots
  rw [pairs_map, List.map_map, List.map_map]
  apply List.map_congr_left
  intro pr hpr
  have hm := List.of_mem_zip (show (pr.1, pr.2) ∈ sizes.zip sizes.tail from hpr)
  have hp1 : 0 < pr.1 := hpos _ hm.1
  have hp2 : 0 < pr.2 := hpos _ (List.mem_of_mem_tail hm.2)
  have hne : c * pr.1 ≠ 0 := ne_of_gt (mul_pos hc hp1)
  have hdiv : (0 : ℚ) ≤ pr.2 / pr.1 := le_of_lt (div_pos hp2 hp1)
  simp [Function.comp, memRatioOf, JSNum.div, JSNum.max, hne, max_eq_left hdiv,
    mul_div_mul_left _ _ (ne_of_gt hc)]

theorem timeRatios_sqPoints (sizes : List ℚ) (hpos : ∀ n ∈ sizes, 0 < n) :
    timeRatios (sqPoints sizes) = (sqQuots sizes).map JSNum.finite := by
  unfold timeRatios sqPoints sqQuots
  rw [pairs_map, List.map_map, List.map_map]
  apply List.map_congr_left
  intro pr hpr
  have hm := List.of_mem_zip (show (pr.1, pr.2) ∈ sizes.zip sizes.tail from hpr)
  have hp1 : 0 < pr.1 := hpos _ hm.1
  have hne : pr.1 ^ 2 ≠ 0 := pow_ne_zero 2 (ne_of_gt hp1)
  simp [Function.comp, timeRatioOf, JSNum.div, hne]

theorem memRatios_sqPoints (sizes : List ℚ) (hpos : ∀ n ∈ sizes, 0 < n) :
    memRatios (sqPoints sizes) = (sqQuots sizes).map JSNum.finite := by
  unfold memRatios sqPoints sqQuots
  rw [pairs_map, List.map_map, List.map_map]
  apply List.map_congr_left
  intro pr hpr
  have hm := List.of_mem_zip (show (pr.1, pr.2) ∈ sizes.zip sizes.tail from hpr)
  have hp1 : 0 < pr.1 := hpos _ hm.1
  have hp2 : 0 < pr.2 := hpos _ (List.mem_of_mem_tail hm.2)
  have hne : pr.1 ^ 2 ≠ 0 := pow_ne_zero 2 (ne_of_gt hp1)
  have hdiv : (0 : ℚ) ≤ pr.2 ^ 2 / pr.1 ^ 2 :=
    le_of_lt (div_pos (pow_pos hp2 2) (pow_pos hp1 2))
  simp [Function.comp, memRatioOf, JSNum.div, JSNum.max, hne, max_eq_left hdiv]

/-- Counterexample to C3 as stated: the points `(1, 1, 1), (10, 10, 10)` have
metric exactly `1 · inputSize` in both dimensions, yet the classifier returns
quadratic-or-worse, not linear — the raw metric ratio `10` is compared
against the thresholds without any normalization by the size step. -/
theorem claim_c3_cex :
    estimateComplexity (timeRatios (linPoints 1 [1, 10])) = "O(n^2) or worse" ∧
    estimateComplexity (timeRatios (linPoints 1 [1, 10])) ≠ "O(n) ~ linear" ∧
    estimateComplexity (memRatios (linPoints 1 [1, 10])) ≠ "O(n) ~ linear" :=
  ⟨by with_unfolding_all rfl, by with_unfolding_all decide, by with_unfolding_all decide⟩

theorem estComp_linear_iff (l : List ℚ) :
    estimateComplexity (l.map JSNum.finite) = "O(n) ~ linear" ↔
      3 / 2 ≤ l.sum / (l.length : ℚ) ∧ l.sum / (l.length : ℚ) < 3 := by
  rcases eq_or_ne l [] with rfl | h
  · constructor
    · intro hh
      exact absurd hh (by with_unfolding_all decide)
    · rintro ⟨h1, _⟩
      norm_num at h1
  · rw [estComp_map_finite l h]
    split_ifs with h1 h2 h3
    · constructor
      · intro hh; exact absurd hh (by decide)
      · rintro ⟨hge, _⟩; exact absurd h1 (not_lt.mpr hge)
    · exact ⟨fun _ => ⟨not_lt.mp h1, h2⟩, fun _ => rfl⟩
    · constructor
      · intro hh; exact absurd hh (by decide)
      · rintro ⟨_, hlt⟩; exact absurd hlt h2
    · constructor
      · intro hh; exact absurd hh (by decide)
      · rintro ⟨_, hlt⟩; exact absurd hlt h2

/-- Claim C3 as amended: for metrics growing as `c · inputSize` over positive
sizes, each dimension classifies as linear exactly when the arithmetic mean
of the consecutive size quotients lies in `[1.5, 3)` (e.g. sizes that
roughly double); in particular the verdict is independent of the positive
constant `c` (consistent unit scaling), and a size progression whose mean
quotient falls outside `[1.5, 3)` yields a different verdict. -/
theorem claim_c3_amended (c : ℚ) (sizes : List ℚ) (hc : 0 < c)
    (hpos : ∀ n ∈ sizes, 0 < n) :
    (estimateComplexity (timeRatios (linPoints c sizes)) = "O(n) ~ linear" ↔
      3 / 2 ≤ sizeQuotMean sizes ∧ sizeQuotMean sizes < 3) ∧
    (estimateComplexity (memRatios (linPoints c sizes)) = "O(n) ~ linear" ↔
      3 / 2 ≤ sizeQuotMean sizes ∧ sizeQuotMean sizes < 3) := by
  unfold sizeQuotMean
  rw [timeRatios_linPoints c sizes hc hpos, memRatios_linPoints c sizes hc hpos]
  exact ⟨estComp_linear_iff _, estComp_linear_iff _⟩

/-- Witness for the amended C3: `c = 5`, sizes `[1, 2, 4]` (size quotients
`[2, 2]`, mean `2 ∈ [1.5, 3)`) give the linear verdict in both dimensions. -/
theorem claim_c3_amended_witness :
    estimateComplexity (timeRatios (linPoints 5 [1, 2, 4])) = "O(n) ~ linear" ∧
    estimateComplexity (memRatios (linPoints 5 [1, 2, 4])) = "O(n) ~ linear" := by
  have hpos : ∀ n ∈ [(1 : ℚ), 2, 4], 0 < n := by
    intro n hn
    simp only [List.mem_cons, List.mem_singleton, List.not_mem_nil, or_false] at hn
    rcases hn with rfl | rfl | rfl <;> norm_num
  have h := claim_c3_amended 5 [1, 2, 4] (by norm_num) hpos
  exact ⟨h.1.mpr ⟨by with_unfolding_all decide, by with_unfolding_all decide⟩,
    h.2.mpr ⟨by with_unfolding_all decide, by with_unfolding_all decide⟩⟩

/-- Counterexample to C6 as stated: the points `(1, 1, 1), (2, 4, 4)` have
metric exactly `inputSize ^ 2`, yet the classifier returns nearly-linear, not
quadratic-or-worse — with doubling sizes the squared quotient is `4 < 6`. -/
theorem claim_c6_cex :
    estimateComplexity (timeRatios (sqPoints [1, 2])) = "O(n log n) ~ nearly-linear" ∧
    estimateComplexity (timeRatios (sqPoints [1, 2])) ≠ "O(n^2) or worse" :=
  ⟨by with_unfolding_all rfl, by with_unfolding_all decide⟩

theorem estComp_quad_iff (l : List ℚ) (h : l ≠ []) :
    estimateComplexity (l.map JSNum.finite) = "O(n^2) or worse" ↔
      6 ≤ l.sum / (l.length : ℚ) := by
  rw [estComp_map_finite l h]
  split_ifs with h1 h2 h3
  · constructor
    · intro hh; exact absurd hh (by decide)
    · intro hge; exact absurd h1 (not_lt.mpr (le_trans (by norm_num) hge))
  · constructor
    · intro hh; exact absurd hh (by decide)
    · intro hge; exact absurd h2 (not_lt.mpr (le_trans (by norm_num) hge))
  · constructor
    · intro hh; exact absurd hh (by decide)
    · intro hge; exact absurd h3 (not_lt.mpr hge)
  · exact ⟨fun _ => not_lt.mp h3, fun _ => rfl⟩

/-- Claim C6 as amended: for runs of at least two sizes with metric
`inputSize ^ 2` over positive sizes, each dimension classifies as
quadratic-or-worse exactly when the mean of the consecutive squared size
quotients is at least `6` (e.g. size steps of factor at least `√6`, such as
tenfold); smaller steps, e.g. doubling (squared quotient `4`), yield a lower
verdict. -/
theorem claim_c6_amended (sizes : List ℚ) (hpos : ∀ n ∈ sizes, 0 < n)
    (hlen : 2 ≤ sizes.length) :
    (estimateComplexity (timeRatios (sqPoints sizes)) = "O(n^2) or worse" ↔
      6 ≤ sqQuotMean sizes) ∧
    (estimateComplexity (memRatios (sqPoints sizes)) = "O(n^2) or worse" ↔
      6 ≤ sqQuotMean sizes) := by
  have hq : sqQuots sizes ≠ [] := by
    intro he
    have hlz := congrArg List.length he
    unfold sqQuots at hlz
    rw [List.length_map, List.length_zip, List.length_tail,
      min_eq_right (Nat.sub_le _ _)] at hlz
    simp at hlz
    omega
  unfold sqQuotMean
  rw [timeRatios_sqPoints sizes hpos, memRatios_sqPoints sizes hpos]
  exact ⟨estComp_quad_iff _ hq, estComp_quad_iff _ hq⟩

/-- Witness for the amended C6: sizes `[1, 10]` (squared quotient `100`,
mean `≥ 6`) give the quadratic-or-worse verdict in both dimensions. -/
theorem claim_c6_amended_witness :
    estimateComplexity (timeRatios (sqPoints [1, 10])) = "O(n^2) or worse" ∧
    estimateComplexity (memRatios (sqPoints [1, 10])) = "O(n^2) or worse" := by
  have hpos : ∀ n ∈ [(1 : ℚ), 10], 0 < n := by
    intro n hn
    simp only [List.mem_cons, List.mem_singleton, List.not_mem_nil, or_false] at hn
    rcases hn with rfl | rfl <;> norm_num
  have h := claim_c6_amended [1, 10] hpos (by norm_num)
  exact ⟨h.1.mpr (by with_unfolding_all decide), h.2.mpr (by with_unfolding_all decide)⟩

/-- Claim C8: one call of `measureTimeAndMemory` invokes the measured
function exactly once (an instrumented invocation counter advances by
exactly one), returns that single invocation's result unchanged, computes
`timeMs` from the clock readings, and returns `memoryMb` as the raw
difference `endMem - startMem` converted to megabytes without clamping — in
particular the returned `memoryMb` can be negative. -/
theorem claim_c8 (S T : Type) (fn0 : S → T × S) (env : MeasureEnv) (world : S) (calls : ℕ) :
    (measureTimeAndMemory (fun w : S × ℕ => ((fn0 w.1).1, ((fn0 w.1).2, w.2 + 1)))
      env (world, calls)).2.2 = calls + 1 ∧
    (measureTimeAndMemory (fun w : S × ℕ => ((fn0 w.1).1, ((fn0 w.1).2, w.2 + 1)))
      env (world, calls)).1.result = (fn0 world).1 ∧
    (measureTimeAndMemory (fun w : S × ℕ => ((fn0 w.1).1, ((fn0 w.1).2, w.2 + 1)))
      env (world, calls)).1.timeMs = (env.endTime - env.startTime) / 1000000 ∧
    (measureTimeAndMemory (fun w : S × ℕ => ((fn0 w.1).1, ((fn0 w.1).2, w.2 + 1)))
      env (world, calls)).1.memoryMb = (env.endMem - env.startMem) / 1024 / 1024 ∧
    ∃ env2 : MeasureEnv, (measureTimeAndMemory (fun u : Unit => ((), u)) env2 ()).1.memoryMb < 0 := by
  refine ⟨rfl, rfl, rfl, rfl, ⟨⟨1, 0, 0, 0⟩, ?_⟩⟩
  show ((0 : ℚ) - 1) / 1024 / 1024 < 0
  norm_num

/-! ## The measurement loop: shape of the results and error propagation -/

theorem measureStep_ok_n {E A B : Type} (generator : ℚ → Except E A) (fn : A → Except E B)
    (envOf : ℚ → MeasureEnv) (n : ℚ) (p : BenchmarkPoint)
    (h : measureStep generator fn envOf n = Except.ok p) : p.n = n := by
  unfold measureStep at h
  cases hg : generator n with
  | error e => rw [hg] at h; exact absurd h (by simp)
  | ok input =>
    rw [hg] at h
    dsimp only at h
    cases hf : fn input with
    | error e => rw [hf] at h; exact absurd h (by simp)
    | ok b =>
      rw [hf] at h
      dsimp only at h
      simp only [Except.ok.injEq] at h
      rw [← h]

/-- Claim C5: a run whose measurements all succeed produces exactly one point
per requested size, in request order: the result list has the same length as
the size list and the `i`-th point's `n` is the `i`-th requested size. -/
theorem claim_c5 {E A B : Type} (generator : ℚ → Except E A) (fn : A → Except E B)
    (envOf : ℚ → MeasureEnv) (sizes : List ℚ) (pts : List BenchmarkPoint)
    (h : benchmarkResults generator fn envOf sizes = Except.ok pts) :
    pts.length = sizes.length ∧
    ∀ i : ℕ, (pts.get? i).map (fun p => p.n) = sizes.get? i := by
  induction sizes generalizing pts with
  | nil =>
    unfold benchmarkResults mapMeasure at h
    simp only [Except.ok.injEq] at h
    exact ⟨by rw [← h]; rfl, fun i => by rw [← h]; rfl⟩
  | cons n rest ih =>
    unfold benchmarkResults mapMeasure at h
    cases hs : measureStep generator fn envOf n with
    | error e => rw [hs] at h; exact absurd h (by simp)
    | ok p =>
      rw [hs] at h
      dsimp only at h
      cases hr : mapMeasure (measureStep generator fn envOf) rest with
      | error e => rw [hr] at h; exact absurd h (by simp)
      | ok ps =>
        rw [hr] at h
        dsimp only at h
        simp only [Except.ok.injEq] at h
        have hih := ih ps (by unfold benchmarkResults; exact hr)
        have hn := measureStep_ok_n generator fn envOf n p hs
        refine ⟨?_, ?_⟩
        · rw [← h]
          simp [hih.1]
        · intro i
          rw [← h]
          cases i with
          | zero => simp [hn]
          | succ j => simpa using hih.2 j

/-- Witness for C5: a two-size run with total generator and function produces
two points whose first `n` is the first requested size. -/
theorem claim_c5_witness :
    ([⟨1, 0, 0⟩, ⟨2, 0, 0⟩] : List BenchmarkPoint).length = [(1 : ℚ), 2].length ∧
    (([⟨1, 0, 0⟩, ⟨2, 0, 0⟩] : List BenchmarkPoint).get? 0).map (fun p => p.n) =
      [(1 : ℚ), 2].get? 0 := by
  have h := claim_c5 (fun n => (Except.ok n : Except ℕ ℚ)) (fun x => (Except.ok x : Except ℕ ℚ))
    (fun _ => ⟨0, 0, 0, 0⟩) [1, 2] [⟨1, 0, 0⟩, ⟨2, 0, 0⟩] (by with_unfolding_all rfl)
  exact ⟨h.1, h.2 0⟩

theorem mapMeasure_error {E : Type} (step : ℚ → Except E BenchmarkPoint)
    (pre rest : List ℚ) (bad : ℚ) (e : E)
    (hpre : ∀ n ∈ pre, ∃ p, step n = Except.ok p)
    (hbad : step bad = Except.error e) :
    mapMeasure step (pre ++ bad :: rest) = Except.error e := by
  induction pre with
  | nil => simp [mapMeasure, hbad]
  | cons a t ih =>
    obtain ⟨p, hp⟩ := hpre a (List.mem_cons_self a t)
    have ht := ih (fun n hn => hpre n (List.mem_cons_of_mem a hn))
    simp [mapMeasure, hp, ht]

/-- Claim C7: if the generator or the function under test throws for some
size (all earlier sizes succeeding), the run aborts with exactly that error
and produces none of its outputs — no table, no verdicts, no chart data. -/
theorem claim_c7 {E A B : Type} (generator : ℚ → Except E A) (fn : A → Except E B)
    (envOf : ℚ → MeasureEnv) (pre rest : List ℚ) (bad : ℚ) (e : E)
    (hpre : ∀ n ∈ pre, ∃ p, measureStep generator fn envOf n = Except.ok p)
    (hbad : measureStep generator fn envOf bad = Except.error e) :
    benchmarkRun generator fn envOf (pre ++ bad :: rest) = Except.error e := by
  unfold benchmarkRun benchmarkResults
  rw [mapMeasure_error _ pre rest bad e hpre hbad]

/-- Witness for C7: with a generator that throws `7` at size `2`, the run
over sizes `[1, 2, 3]` aborts with error `7`. -/
theorem claim_c7_witness :
    benchmarkRun (fun n => if n = 2 then (Except.error 7 : Except ℕ ℚ) else Except.ok n)
      (fun x => (Except.ok x : Except ℕ ℚ)) (fun _ => ⟨0, 0, 0, 0⟩) [1, 2, 3] =
      Except.error 7 := by
  have h := claim_c7 (fun n => if n = 2 then (Except.error 7 : Except ℕ ℚ) else Except.ok n)
    (fun x => (Except.ok x : Except ℕ ℚ)) (fun _ => ⟨0, 0, 0, 0⟩) [1] [3] 2 7
    (by
      intro n hn
      simp only [List.mem_singleton] at hn
      subst hn
      exact ⟨⟨1, 0, 0⟩, by with_unfolding_all rfl⟩)
    (by with_unfolding_all rfl)
  exact h

/-! ## The longest-duplicate-free-substring algorithms -/

theorem allUniqueGo_eq_true (l : List (List ℕ)) :
    ∀ seen : List (List ℕ), allUniqueGo l seen = true ↔ l.Nodup ∧ ∀ c ∈ l, c ∉ seen := by
  induction l with
  | nil => intro seen; simp [allUniqueGo]
  | cons c rest ih =>
    intro seen
    simp only [allUniqueGo]
    by_cases hc : c ∈ seen
    · rw [if_pos hc]
      constructor
      · intro h; exact absurd h (by simp)
      · rintro ⟨_, hall⟩
        exact absurd hc (hall c (List.mem_cons_self c rest))
    · rw [if_neg hc, ih (c :: seen)]
      constructor
      · rintro ⟨hnd, hall⟩
        refine ⟨List.nodup_cons.mpr ⟨fun hm => ?_, hnd⟩, ?_⟩
        · exact hall c hm (List.mem_cons_self c seen)
        · intro x hx
          rcases List.mem_cons.mp hx with rfl | hx2
          · exact hc
          · intro hxs
            exact hall x hx2 (List.mem_cons_of_mem c hxs)
      · rintro ⟨hnd, hall⟩
        have hnd2 := List.nodup_cons.mp hnd
        refine ⟨hnd2.2, ?_⟩
        intro x hx hmem
        rcases List.mem_cons.mp hmem with rfl | hxs
        · exact hnd2.1 hx
        · exact hall x (List.mem_cons_of_mem c hx) hxs

theorem codePoints_no_high :
    ∀ l : List ℕ, (∀ u ∈ l, ¬ (55296 ≤ u ∧ u ≤ 56319)) →
      codePoints l = l.map (fun u => [u]) := by
  intro l
  induction l with
  | nil => intro _; rfl
  | cons u rest ih =>
    intro h
    have hu := h u (List.mem_cons_self u rest)
    cases rest with
    | nil => rfl
    | cons v rest2 =>
      have hcond : ¬ ((55296 ≤ u ∧ u ≤ 56319) ∧ (56320 ≤ v ∧ v ≤ 57343)) :=
        fun hc => hu hc.1
      simp only [codePoints]
      rw [if_neg hcond, List.map_cons]
      congr 1
      exact ih (fun x hx => h x (List.mem_cons_of_mem u hx))

theorem singleton_injective : Function.Injective (fun u : ℕ => [u]) := by
  intro a b hab
  simpa using hab

/-- For a unit list containing no high surrogate, `for...of` yields exactly
the units, so `allUnique` tests exactly their distinctness. -/
theorem allUnique_iff (l : List ℕ) (h : ∀ u ∈ l, ¬ (55296 ≤ u ∧ u ≤ 56319)) :
    allUnique l = true ↔ l.Nodup := by
  rw [allUnique, allUniqueGo_eq_true (codePoints l) [], codePoints_no_high l h]
  simp [List.nodup_map_iff singleton_injective]

/-! ## Generic lemmas about folds that accumulate a maximum -/

theorem foldl_step_le {α : Type} (h : ℕ → α → ℕ) (hmono : ∀ a x, a ≤ h a x) :
    ∀ (l : List α) (acc : ℕ), acc ≤ l.foldl h acc := by
  intro l
  induction l with
  | nil => intro acc; exact le_refl acc
  | cons y t ih => intro acc; exact le_trans (hmono acc y) (ih (h acc y))

theorem foldl_step_elem {α : Type} (h : ℕ → α → ℕ) (hmono : ∀ a x, a ≤ h a x)
    (v : ℕ) (x : α) (hx : ∀ a, v ≤ h a x) :
    ∀ (l : List α) (acc : ℕ), x ∈ l → v ≤ l.foldl h acc := by
  intro l
  induction l with
  | nil => intro acc hm; exact absurd hm (List.not_mem_nil x)
  | cons y t ih =>
    intro acc hm
    rcases List.mem_cons.mp hm with rfl | hm2
    · exact le_trans (hx acc) (foldl_step_le h hmono t (h acc x))
    · exact ih (h acc y) hm2

theorem foldl_step_cases {α : Type} (h : ℕ → α → ℕ) (Q : α → ℕ → Prop)
    (hc : ∀ (a : ℕ) (x : α), h a x = a ∨ Q x (h a x)) :
    ∀ (l : List α) (acc : ℕ), l.foldl h acc = acc ∨ ∃ x ∈ l, Q x (l.foldl h acc) := by
  intro l
  induction l with
  | nil => intro acc; exact Or.inl rfl
  | cons y t ih =>
    intro acc
    rcases ih (h acc y) with heq | ⟨x, hx, hq⟩
    · rcases hc acc y with ha | hq2
      · left
        rw [List.foldl_cons, heq, ha]
      · right
        exact ⟨y, List.mem_cons_self y t, by rw [List.foldl_cons, heq]; exact hq2⟩
    · right
      exact ⟨x, List.mem_cons_of_mem y hx, hq⟩

/-! ## Properties of the brute-force implementation -/

theorem bf_eq_fold (s : List ℕ) :
    lengthOfLongestSubstringBruteForce s = (List.range s.length).foldl (bfOuter s) 0 := rfl

theorem bfInner_mono (s : List ℕ) (i : ℕ) : ∀ (a d : ℕ), a ≤ bfInner s i a d := by
  intro a d
  unfold bfInner
  split_ifs
  · exact le_max_left _ _
  · exact le_rfl

theorem bfOuter_mono (s : List ℕ) : ∀ (a i : ℕ), a ≤ bfOuter s a i :=
  fun a i => foldl_step_le (bfInner s i) (bfInner_mono s i) _ a

theorem slice_no_high (s : List ℕ) (hns : ∀ u ∈ s, ¬ (55296 ≤ u ∧ u ≤ 56319)) (i k : ℕ) :
    ∀ u ∈ (s.drop i).take k, ¬ (55296 ≤ u ∧ u ≤ 56319) :=
  fun u hu => hns u (((List.take_sublist _ _).trans (List.drop_sublist _ _)).subset hu)

theorem bf_ge_slice (s : List ℕ) (hns : ∀ u ∈ s, ¬ (55296 ≤ u ∧ u ≤ 56319))
    (i j : ℕ) (hij : i ≤ j) (hj : j ≤ s.length)
    (hnd : ((s.drop i).take (j - i)).Nodup) :
    j - i ≤ lengthOfLongestSubstringBruteForce s := by
  rcases Nat.eq_or_lt_of_le hij with rfl | hlt
  · simp
  · have hlen : ((s.drop i).take (j - i)).length = j - i := by
      rw [List.length_take, List.length_drop]
      rw [min_eq_left (by omega)]
    have hd1 : j - i = (j - i - 1) + 1 := by omega
    have hInner : ∀ a : ℕ, j - i ≤ bfOuter s a i := by
      intro a
      unfold bfOuter
      have hdm : j - i - 1 ∈ List.range (s.length - i) := List.mem_range.mpr (by omega)
      refine foldl_step_elem (bfInner s i) (bfInner_mono s i) (j - i) (j - i - 1) ?_ _ a hdm
      intro a2
      unfold bfInner
      rw [← hd1, if_pos ((allUnique_iff _ (slice_no_high s hns i (j - i))).mpr hnd), hlen]
      exact le_max_right _ _
    rw [bf_eq_fold]
    exact foldl_step_elem (bfOuter s) (bfOuter_mono s) (j - i) i hInner _ 0
      (List.mem_range.mpr (lt_of_lt_of_le hlt hj))

theorem bf_achieved (s : List ℕ) (hns : ∀ u ∈ s, ¬ (55296 ≤ u ∧ u ≤ 56319)) :
    ∃ i j, i ≤ j ∧ j ≤ s.length ∧ ((s.drop i).take (j - i)).Nodup ∧
      lengthOfLongestSubstringBruteForce s = j - i := by
  have hinner : ∀ (i a2 d : ℕ), bfInner s i a2 d = a2 ∨
      (allUnique ((s.drop i).take (d + 1)) = true ∧
        bfInner s i a2 d = ((s.drop i).take (d + 1)).length) := by
    intro i a2 d
    unfold bfInner
    split_ifs with hu
    · rcases max_choice a2 ((s.drop i).take (d + 1)).length with hm | hm
      · left; exact hm
      · right; exact ⟨hu, hm⟩
    · left; rfl
  have houter : ∀ (a i : ℕ), bfOuter s a i = a ∨
      ∃ d ∈ List.range (s.length - i),
        allUnique ((s.drop i).take (d + 1)) = true ∧
        bfOuter s a i = ((s.drop i).take (d + 1)).length := by
    intro a i
    exact foldl_step_cases (bfInner s i)
      (fun d v => allUnique ((s.drop i).take (d + 1)) = true ∧
        v = ((s.drop i).take (d + 1)).length)
      (hinner i) (List.range (s.length - i)) a
  have hcases := foldl_step_cases (bfOuter s)
    (fun i v => ∃ d ∈ List.range (s.length - i),
      allUnique ((s.drop i).take (d + 1)) = true ∧ v = ((s.drop i).take (d + 1)).length)
    houter (List.range s.length) 0
  rw [bf_eq_fold]
  rcases hcases with heq | ⟨i, hi, d, hd, hu, hv⟩
  · exact ⟨0, 0, le_rfl, Nat.zero_le _, by simp, by rw [heq]⟩
  · have hdlt := List.mem_range.mp hd
    refine ⟨i, i + (d + 1), by omega, by omega, ?_, ?_⟩
    · rw [show i + (d + 1) - i = d + 1 by omega]
      exact (allUnique_iff _ (slice_no_high s hns i (d + 1))).mp hu
    · rw [hv, List.length_take, List.length_drop, min_eq_left (by omega)]
      omega

/-! ## Properties of the sliding-window implementation -/

theorem swin_eq_drop_take (s : List ℕ) (i j : ℕ) :
    swin s i j = (s.drop i).take (j - i) := by
  unfold swin
  rw [List.drop_take]

theorem swin_length (s : List ℕ) (l r : ℕ) (hr : r ≤ s.length) :
    (swin s l r).length = r - l := by
  unfold swin
  rw [List.length_drop, List.length_take, min_eq_left hr]

theorem swin_cons (s : List ℕ) (l r : ℕ) (hlr : l < r) (hr : r ≤ s.length) :
    swin s l r = s[l] :: swin s (l + 1) r := by
  unfold swin
  have hl : l < (s.take r).length := by
    rw [List.length_take]
    exact lt_min hlr (lt_of_lt_of_le hlr hr)
  rw [List.drop_eq_getElem_cons hl]
  congr 1
  exact List.getElem_take s

theorem swin_snoc (s : List ℕ) (l r : ℕ) (hlr : l ≤ r) (hr : r < s.length) :
    swin s l (r + 1) = swin s l r ++ [s[r]] := by
  unfold swin
  rw [List.take_succ, List.getElem?_eq_getElem hr]
  rw [List.drop_append_of_le_length (by rw [List.length_take, min_eq_left (le_of_lt hr)]; exact hlr)]
  rfl

theorem whileShrink_spec (s : List ℕ) (c : ℕ) (r : ℕ) (hr : r ≤ s.length) :
    ∀ fuel left, left ≤ r → (swin s left r).length ≤ fuel →
      ∃ left2, whileShrink s c fuel (swin s left r) left = (swin s left2 r, left2) ∧
        left ≤ left2 ∧ left2 ≤ r ∧ c ∉ swin s left2 r ∧
        ∀ l, left ≤ l → l < left2 → c ∈ swin s l r := by
  intro fuel
  induction fuel with
  | zero =>
    intro left hlr hlen
    have hempty : swin s left r = [] := List.eq_nil_of_length_eq_zero (Nat.le_zero.mp hlen)
    refine ⟨left, rfl, le_rfl, hlr, ?_, fun l h1 h2 => absurd (lt_of_le_of_lt h1 h2) (lt_irrefl left)⟩
    rw [hempty]
    exact List.not_mem_nil c
  | succ fuel ih =>
    intro left hlr hlen
    by_cases hc : c ∈ swin s left r
    · have hne : swin s left r ≠ [] := fun hh => by rw [hh] at hc; exact List.not_mem_nil c hc
      have hlen2 : (swin s left r).length = r - left := swin_length s left r hr
      have hlt : left < r := by
        by_contra hcon
        push_neg at hcon
        exact hne (List.eq_nil_of_length_eq_zero (by omega))
      have hget : s.get? left = some s[left] := by
        rw [List.get?_eq_getElem?]
        exact List.getElem?_eq_getElem (lt_of_lt_of_le hlt hr)
      have hcons : swin s left r = s[left] :: swin s (left + 1) r := swin_cons s left r hlt hr
      have herase : (match s.get? left with
          | some ch => (swin s left r).erase ch
          | none => swin s left r) = swin s (left + 1) r := by
        rw [hget]
        dsimp only
        rw [hcons, List.erase_cons_head]
      have hstep : whileShrink s c (fuel + 1) (swin s left r) left =
          whileShrink s c fuel (swin s (left + 1) r) (left + 1) := by
        simp only [whileShrink]
        rw [if_pos hc, herase]
      have hlen3 : (swin s (left + 1) r).length ≤ fuel := by
        rw [swin_length s (left + 1) r hr]
        rw [hlen2] at hlen
        omega
      obtain ⟨left2, heq, h1, h2, h3, h4⟩ := ih (left + 1) hlt hlen3
      refine ⟨left2, ?_, by omega, h2, h3, ?_⟩
      · rw [hstep]
        exact heq
      · intro l hl1 hl2
        rcases Nat.eq_or_lt_of_le hl1 with rfl | hl3
        · exact hc
        · exact h4 l hl3 hl2
    · refine ⟨left, ?_, le_rfl, hlr, hc,
        fun l h1 h2 => absurd (lt_of_le_of_lt h1 h2) (lt_irrefl left)⟩
      simp only [whileShrink]
      rw [if_neg hc]

theorem sw_loop_inv (s : List ℕ) :
    ∀ r, r ≤ s.length →
      ∃ cs left maxL,
        (List.range r).foldl (swStep s) ([], 0, 0) = (cs, left, maxL) ∧
        left ≤ r ∧ cs = swin s left r ∧ cs.Nodup ∧
        (∀ l, l < left → ¬ (swin s l r).Nodup) ∧
        (∃ i j, i ≤ j ∧ j ≤ r ∧ (swin s i j).Nodup ∧ maxL = j - i) ∧
        (∀ i j, i ≤ j → j ≤ r → (swin s i j).Nodup → j - i ≤ maxL) := by
  intro r
  induction r with
  | zero =>
    intro _
    refine ⟨[], 0, 0, rfl, le_rfl, rfl, List.nodup_nil,
      fun l hl => absurd hl (Nat.not_lt_zero l),
      ⟨0, 0, le_rfl, le_rfl, List.nodup_nil, rfl⟩, ?_⟩
    intro i j hij hj _
    omega
  | succ r ih =>
    intro hr1
    have hr : r ≤ s.length := by omega
    have hrlt : r < s.length := by omega
    obtain ⟨cs, left, maxL, hfold, hlr, hcs, hnd, hmin, hach, hupper⟩ := ih hr
    have hgd : s.getD r 0 = s[r] := by
      rw [List.getD_eq_getElem?_getD, List.getElem?_eq_getElem hrlt]
      rfl
    obtain ⟨left2, hws, h12, h2r, hnotin, hrange⟩ :=
      whileShrink_spec s (s[r]) r hr cs.length left hlr (le_of_eq (by rw [hcs]))
    have hws2 : whileShrink s (s[r]) cs.length cs left = (swin s left2 r, left2) := by
      rw [← hcs] at hws
      exact hws
    have hstate : (List.range (r + 1)).foldl (swStep s) ([], 0, 0) =
        (setAdd (swin s left2 r) (s[r]), left2,
          max maxL (setAdd (swin s left2 r) (s[r])).length) := by
      rw [List.range_succ, List.foldl_append, hfold]
      show swStep s (cs, left, maxL) r = _
      unfold swStep
      dsimp only
      rw [hgd, hws2]
    have hadd : setAdd (swin s left2 r) (s[r]) = swin s left2 r ++ [s[r]] := by
      unfold setAdd
      rw [if_neg hnotin]
    have hsnoc : swin s left2 (r + 1) = swin s left2 r ++ [s[r]] := swin_snoc s left2 r h2r hrlt
    have hcs2 : setAdd (swin s left2 r) (s[r]) = swin s left2 (r + 1) := by
      rw [hadd, hsnoc]
    have hnd2 : (swin s left2 r).Nodup := by
      have hdd : swin s left2 r = cs.drop (left2 - left) := by
        rw [hcs]
        unfold swin
        rw [List.drop_drop]
        congr 1
        omega
      rw [hdd]
      exact List.Nodup.sublist (List.drop_sublist _ _) hnd
    have hnd3 : (swin s left2 (r + 1)).Nodup := by
      rw [hsnoc, List.nodup_append]
      exact ⟨hnd2, List.nodup_singleton _, List.disjoint_singleton.mpr hnotin⟩
    have hmin2 : ∀ l, l < left2 → ¬ (swin s l (r + 1)).Nodup := by
      intro l hl
      have hlr2 : l ≤ r := by omega
      rw [swin_snoc s l r hlr2 hrlt, List.nodup_append]
      rintro ⟨hna, _, hdisj⟩
      by_cases hcase : l < left
      · exact hmin l hcase hna
      · push_neg at hcase
        exact (List.disjoint_singleton.mp hdisj) (hrange l hcase hl)
    have hlen2 : (swin s left2 (r + 1)).length = (r + 1) - left2 :=
      swin_length s left2 (r + 1) hr1
    have hach2 : ∃ i j, i ≤ j ∧ j ≤ r + 1 ∧ (swin s i j).Nodup ∧
        max maxL (setAdd (swin s left2 r) (s[r])).length = j - i := by
      rw [hcs2, hlen2]
      rcases max_choice maxL ((r + 1) - left2) with hm | hm
      · obtain ⟨i, j, hij, hjr, hndw, hv⟩ := hach
        exact ⟨i, j, hij, by omega, hndw, by rw [hm, hv]⟩
      · exact ⟨left2, r + 1, by omega, le_rfl, hnd3, hm⟩
    have hupper2 : ∀ i j, i ≤ j → j ≤ r + 1 → (swin s i j).Nodup →
        j - i ≤ max maxL (setAdd (swin s left2 r) (s[r])).length := by
      rw [hcs2, hlen2]
      intro i j hij hj hndw
      rcases Nat.lt_or_ge j (r + 1) with hjr | hjr
      · exact le_trans (hupper i j hij (by omega) hndw) (le_max_left _ _)
      · have hj2 : j = r + 1 := by omega
        subst hj2
        by_cases hi : i < left2
        · exact absurd hndw (hmin2 i hi)
        · push_neg at hi
          exact le_trans (by omega) (le_max_right maxL ((r + 1) - left2))
    refine ⟨setAdd (swin s left2 r) (s[r]), left2,
      max maxL (setAdd (swin s left2 r) (s[r])).length,
      hstate, by omega, hcs2, ?_, hmin2, hach2, hupper2⟩
    rw [hcs2]
    exact hnd3

theorem lols_NodupSliceMax (s : List ℕ) :
    NodupSliceMax s (lengthOfLongestSubstring s) := by
  obtain ⟨cs, left, maxL, hfold, _, _, _, _, hach, hupper⟩ := sw_loop_inv s s.length le_rfl
  unfold lengthOfLongestSubstring
  rw [hfold]
  exact ⟨hach, hupper⟩

theorem bf_NodupSliceMax (s : List ℕ) (hns : ∀ u ∈ s, ¬ (55296 ≤ u ∧ u ≤ 56319)) :
    NodupSliceMax s (lengthOfLongestSubstringBruteForce s) := by
  constructor
  · obtain ⟨i, j, hij, hj, hnd, hv⟩ := bf_achieved s hns
    refine ⟨i, j, hij, hj, ?_, hv⟩
    rw [swin_eq_drop_take]
    exact hnd
  · intro i j hij hj hnd
    apply bf_ge_slice s hns i j hij hj
    rw [← swin_eq_drop_take]
    exact hnd

theorem NodupSliceMax_unique (s : List ℕ) (v w : ℕ)
    (hv : NodupSliceMax s v) (hw : NodupSliceMax s w) : v = w := by
  obtain ⟨⟨i, j, hij, hj, hnd, hveq⟩, hvup⟩ := hv
  obtain ⟨⟨i2, j2, hij2, hj2, hnd2, hweq⟩, hwup⟩ := hw
  apply le_antisymm
  · rw [hveq]
    exact hwup i j hij hj hnd
  · rw [hweq]
    exact hvup i2 j2 hij2 hj2 hnd2

/-- Counterexample to C9 as stated: on the string with UTF-16 code units
`D83D DE00 D83D` (an astral character followed by a lone high surrogate) the
sliding window returns `2` — it indexes code units and unit `D83D` repeats —
while the brute force returns `3`: `slice(0, 3)` is iterated by `for...of` as
the two distinct code points `D83D DE00` and `D83D`, so `allUnique` accepts
the whole three-unit string.  The claimed equivalence on every string is
false in the source. -/
theorem claim_c9_cex :
    lengthOfLongestSubstring [55357, 56832, 55357] = 2 ∧
    lengthOfLongestSubstringBruteForce [55357, 56832, 55357] = 3 ∧
    lengthOfLongestSubstring [55357, 56832, 55357] ≠
      lengthOfLongestSubstringBruteForce [55357, 56832, 55357] :=
  ⟨by decide, by decide, by decide⟩

/-- Claim C9 as amended: the sliding-window implementation agrees with the
brute force on every string whose UTF-16 code units contain no high
surrogate, i.e. whenever `for...of` iteration yields exactly the code units
that indexing and `slice` operate on.  (Both then compute the length of the
longest duplicate-free contiguous substring.)  On strings with surrogate
pairs the two implementations can disagree. -/
theorem claim_c9_amended (s : List ℕ) (hns : ∀ u ∈ s, ¬ (55296 ≤ u ∧ u ≤ 56319)) :
    lengthOfLongestSubstring s = lengthOfLongestSubstringBruteForce s :=
  NodupSliceMax_unique s _ _ (lols_NodupSliceMax s) (bf_NodupSliceMax s hns)

/-- Witness for the amended C9 at the concrete string "aba" (units
`97 98 97`, none a surrogate): both implementations return `2`. -/
theorem claim_c9_witness :
    lengthOfLongestSubstring [97, 98, 97] = lengthOfLongestSubstringBruteForce [97, 98, 97] :=
  claim_c9_amended [97, 98, 97] (by decide)
